import Mathlib

/-!
# Verification of the kingdon geometric-algebra core

A shallow embedding of `src/kingdon/algebra.py` (the `Algebra` dataclass, the
`_sort_product` swap-counting routine, and the `BladeDict` cache), together with
proofs and refutations of the specified properties.

Python strings are modelled as `List Char`; Python ints as `Nat`/`Int`;
`dict`s as association lists preserving insertion order; fallible lookups as
`Option`; the `TypeError` raised by signature validation as `Except`.
-/

namespace Kingdon

/-! ## Hexadecimal rendering and parsing

`hex(n)[2:]` in Python renders `n ≥ 0` as lowercase hex digits without leading
zeros (and renders `0` as `"0"`).  `int(c, 16)` parses a hex digit character.
-/

/-- The lowercase hex digit character for `n < 16` (as produced by Python's
`hex`).  Values `n ≥ 16` never reach this function. -/
def hexDigitChar (n : Nat) : Char :=
  if n < 10 then Char.ofNat (48 + n) else Char.ofNat (87 + n)

/-- Fuel-driven core of `hexStr`; the fuel bounds the number of digits, and
`n + 1` units always suffice. -/
def hexStrAux : Nat → Nat → List Char
  | 0, _ => []
  | fuel + 1, n =>
      if n < 16 then [hexDigitChar n]
      else hexStrAux fuel (n / 16) ++ [hexDigitChar (n % 16)]

/-- `hex(n)[2:]`: the lowercase hex rendering of `n`, no leading zeros. -/
def hexStr (n : Nat) : List Char :=
  hexStrAux (n + 1) n

/-- `int(c, 16)` for a single hex digit character.  The source raises on a
non-hex character; only hex digit characters ever reach this function. -/
def hexVal (c : Char) : Nat :=
  if 97 ≤ c.toNat then c.toNat - 87 else c.toNat - 48

/-- `bin(n).count('1')`: the number of set bits of `n`.  Every set bit of `n`
has position at most `n`, so scanning positions `0..n` counts them all. -/
def popcount (n : Nat) : Nat :=
  (List.range (n + 1)).countP (fun i => n.testBit i)

/-! ## Blade names (`Algebra.__post_init__`, lines 122–126)

`bin2canon[eJ] = 'e' + ''.join(hex(num + start_index - 1)[2:] for ei in
range(0, d) if (num := (eJ & 2**ei).bit_length()))`: for every set bit `ei`
of `eJ` (low to high) the walrus gives `num = ei + 1`, so the emitted digits
are `hex(ei + start_index)[2:]`.

`canon2bin` is the inverse dict `{c: b for b, c in bin2canon.items()}` (the
sorting applied to it in the source only fixes iteration order, not content);
when two indices render to the same name, the later index wins.
-/

/-- The digit portion of the canonical name of blade `x` in dimension `d` with
start index `s`. -/
def bin2canonDigits (d s x : Nat) : List Char :=
  ((List.range d).filter (fun ei => x.testBit ei)).flatMap (fun ei => hexStr (ei + s))

/-- The canonical name of blade `x`: `'e'` followed by the digits of its set
bits. -/
def bin2canon (d s x : Nat) : List Char :=
  'e' :: bin2canonDigits d s x

/-- Dict lookup in `canon2bin`: the last index in `[0, 2^d)` whose canonical
name is `c`, if any (Python dict comprehension semantics: later keys
overwrite earlier ones). -/
def canon2bin (d s : Nat) (c : List Char) : Option Nat :=
  (List.range (2 ^ d)).foldl
    (fun acc b => if bin2canon d s b = c then some b else acc) none

/-! ## `_sort_product` (lines 351–370)

One bubble pass is the `for i in range(len(prod) - 1)` loop: it walks the list
carrying the current left element of each comparison, swapping whenever the
carried element exceeds its right neighbour.  The outer `while True` loop
repeats passes until a pass performs no swap; each swap-performing pass
strictly decreases the number of inversions by the number of swaps it makes,
so `inversions + 1` passes always suffice, which bounds the fuel of
`sortPasses`.
-/

/-- One bubble pass over `c :: l`, returning the resulting list and the number
of swaps performed in the pass. -/
def bubbleAux (c : Char) : List Char → List Char × Nat
  | [] => ([c], 0)
  | b :: rest =>
      if b < c then
        let r := bubbleAux c rest
        (b :: r.1, r.2 + 1)
      else
        let r := bubbleAux b rest
        (c :: r.1, r.2)

/-- One full bubble pass (the body of the `while True` loop). -/
def bubblePass : List Char → List Char × Nat
  | [] => ([], 0)
  | a :: rest => bubbleAux a rest

/-- The number of inversions (out-of-order pairs) of a list. -/
def inversions : List Char → Nat
  | [] => 0
  | a :: rest => rest.countP (fun b => b < a) + inversions rest

/-- Repeat bubble passes until a pass performs no swap, accumulating the swap
count; the fuel bounds the number of passes. -/
def sortPasses : Nat → List Char → List Char × Nat
  | 0, l => (l, 0)
  | fuel + 1, l =>
      let p := bubblePass l
      if p.2 = 0 then (p.1, 0)
      else
        let q := sortPasses fuel p.1
        (q.1, p.2 + q.2)

/-- `_sort_product`: returns the sorted list (the source sorts in place) and
the total number of swaps.  Lists of length ≤ 1 are returned unchanged with
0 swaps (the source skips them via its `len(prod) > 1` / `len(prod)` guards). -/
def sortProduct (l : List Char) : List Char × Nat :=
  if 1 < l.length then sortPasses (inversions l + 1) l else (l, 0)

/-! ## `collections.Counter` (as used in `_prepare_signs_and_cayley`)

A `Counter` built from an iterable is a dict from element to multiplicity
whose iteration order is the order of first occurrence.  Modelled as an
association list built left to right.
-/

/-- Add one occurrence of `c` to the counter `acc`: increment an existing
entry, else append a new entry with count 1. -/
def counterInsert (acc : List (Char × Nat)) (c : Char) : List (Char × Nat) :=
  if acc.any (fun kv => kv.1 = c) then
    acc.map (fun kv => if kv.1 = c then (kv.1, kv.2 + 1) else kv)
  else acc ++ [(c, 1)]

/-- `Counter(l)` as an insertion-ordered association list. -/
def counter (l : List Char) : List (Char × Nat) :=
  l.foldl counterInsert []

/-! ## Python sequence indexing

`self.signature[i]` for an `int` index on a list/`np.ndarray`: non-negative
indices address from the front, negative indices of magnitude at most the
length wrap around from the back.  Out-of-range accesses raise in the source
and are modelled by the default `0`; no index produced by the Cayley builder
is out of range. -/
def pyGet (l : List Int) (i : Int) : Int :=
  if 0 ≤ i then l.getD i.toNat 0
  else l.getD (l.length - (-i).toNat) 0

/-! ## `_prepare_signs_and_cayley` (lines 188–222), per pair of names

For an ordered pair of canonical names `eI, eJ` the builder concatenates
their digit strings, bubble-sorts the word counting swaps, folds the
signature over the repeated digits (multiplying the sign once for every
digit occurring at least twice, by `signature[int(key, 16) - start_index]`),
keeps each digit `count mod 2` times, and renders the entry: the literal
`"0"` when the sign vanished, else an optional leading `'-'`, the letter
`'e'`, and the surviving digits in counter order. -/

/-- The sign-accumulation loop `for key, value in count.items(): ...`. -/
def signFold (sig : List Int) (s : Nat) (sign0 : Int)
    (cnt : List (Char × Nat)) : Int :=
  cnt.foldl
    (fun sg kv =>
      if kv.2 / 2 ≠ 0 then sg * pyGet sig ((hexVal kv.1 : Int) - (s : Int))
      else sg)
    sign0

/-- `''.join(key*value for key, value in count.items())` after the counts
were reduced mod 2. -/
def residue (cnt : List (Char × Nat)) : List Char :=
  cnt.flatMap (fun kv => List.replicate (kv.2 % 2) kv.1)

/-- The swap count, sign-table entry, and Cayley-table entry for the ordered
pair of blades with digit strings `dI`, `dJ`, for signature `sig` and start
index `s`. -/
def cayleyPair (sig : List Int) (s : Nat) (dI dJ : List Char) :
    Nat × Int × List Char :=
  let w := sortProduct (dI ++ dJ)
  let sign0 : Int := if w.2 % 2 = 1 then -1 else 1
  let cnt := counter w.1
  let sign := signFold sig s sign0 cnt
  (w.2, sign,
    if sign ≠ 0 then
      (if sign = -1 then ['-'] else []) ++ 'e' :: residue cnt
    else ['0'])

/-! ## Signature resolution (`Algebra.__post_init__`, lines 103–119) -/

/-- Resolve the constructor input into `(p, q, r, signature)`.  With an
explicit signature the counts are tallied from it and a `TypeError`
(`"Unsupported signature."`) is raised when the tallies do not cover the
sequence; otherwise the signature is laid out from the counts, null
generators first exactly when `r = 1`. -/
def resolveSignature (p q r : Nat) (sig? : Option (List Int)) :
    Except String (Nat × Nat × Nat × List Int) :=
  match sig? with
  | some sig =>
      let p' := sig.count 1
      let q' := sig.count (-1)
      let r' := sig.count 0
      if p' + q' + r' ≠ sig.length then Except.error "Unsupported signature."
      else Except.ok (p', q', r', sig)
  | none =>
      if r = 1 then
        Except.ok (p, q, r,
          List.replicate r 0 ++ List.replicate p 1 ++ List.replicate q (-1))
      else
        Except.ok (p, q, r,
          List.replicate p 1 ++ List.replicate q (-1) ++ List.replicate r 0)

/-- Resolve `start_index`: an explicitly given value is kept, otherwise `0`
when `r = 1` and `1` otherwise. -/
def resolveStartIndex (r : Nat) (si? : Option Nat) : Nat :=
  match si? with
  | some si => si
  | none => if r = 1 then 0 else 1

/-! ## `indices_for_grade` (lines 151–162)

`sorted(range(len(self)), key=popcount)` is a stable sort by grade, and
`itertools.groupby` then cuts the sorted list into maximal runs of equal
key; the dict comprehension pairs each run with its key. -/

/-- `sorted(range(2^d), key=lambda i: bin(i).count('1'))`. -/
def sortedInds (d : Nat) : List Nat :=
  (List.range (2 ^ d)).mergeSort (fun a b => popcount a ≤ popcount b)

/-- One step of `groupByRuns`: prepend `a` to the first run when its key
matches, else open a new run. -/
def groupByRunsStep (key : Nat → Nat) (a : Nat) :
    List (Nat × List Nat) → List (Nat × List Nat)
  | [] => [(key a, [a])]
  | (k, run) :: more =>
      if key a = k then (k, a :: run) :: more
      else (key a, [a]) :: (k, run) :: more

/-- `itertools.groupby(l, key)`: maximal runs of consecutive elements with
equal key, each paired with that key. -/
def groupByRuns (key : Nat → Nat) : List Nat → List (Nat × List Nat)
  | [] => []
  | a :: rest => groupByRunsStep key a (groupByRuns key rest)

/-- The `{grade: tuple(inds)}` dict of `indices_for_grade`, as an association
list in iteration order. -/
def indicesForGradeList (d : Nat) : List (Nat × List Nat) :=
  groupByRuns popcount (sortedInds d)

/-- Dict lookup `indices_for_grade[g]` (runs of a sorted list have pairwise
distinct keys, so first match equals dict semantics). -/
def indicesForGrade (d g : Nat) : Option (List Nat) :=
  (indicesForGradeList d).lookup g

/-- The start index the constructor resolves for an explicit signature:
`0` when the signature has exactly one null generator, else `1`. -/
def startOf (sig : List Int) : Nat :=
  resolveStartIndex (sig.count 0) none

/-! ## Correctness of the bubble-pass swap counter -/

theorem bubbleAux_perm (c : Char) (l : List Char) :
    List.Perm (bubbleAux c l).1 (c :: l) := by
  induction l generalizing c with
  | nil => simp [bubbleAux]
  | cons b rest ih =>
      by_cases h : b < c
      · simp only [bubbleAux, if_pos h]
        exact (List.Perm.cons b (ih c)).trans (List.Perm.swap c b rest)
      · simp only [bubbleAux, if_neg h]
        exact List.Perm.cons c (ih b)

theorem bubbleAux_inversions (c : Char) (l : List Char) :
    inversions (c :: l) = inversions (bubbleAux c l).1 + (bubbleAux c l).2 := by
  induction l generalizing c with
  | nil => simp [bubbleAux, inversions]
  | cons b rest ih =>
      by_cases h : b < c
      · have hcount := (bubbleAux_perm c rest).countP_eq (fun x => decide (x < b))
        have hih := ih c
        have hcb : ¬ c < b := asymm h
        simp [bubbleAux, if_pos h, inversions, List.countP_cons, h, hcb] at hih hcount ⊢
        omega
      · have hcount := (bubbleAux_perm b rest).countP_eq (fun x => decide (x < c))
        have hih := ih b
        simp [bubbleAux, if_neg h, inversions, List.countP_cons, h] at hih hcount ⊢
        omega

theorem bubbleAux_zero (c : Char) (l : List Char) (h : (bubbleAux c l).2 = 0) :
    (bubbleAux c l).1 = c :: l ∧ (c :: l).Pairwise (· ≤ ·) := by
  induction l generalizing c with
  | nil => simp [bubbleAux]
  | cons b rest ih =>
      by_cases hbc : b < c
      · exfalso
        simp [bubbleAux, if_pos hbc] at h
      · simp only [bubbleAux, if_neg hbc] at h ⊢
        obtain ⟨h1, h2⟩ := ih b h
        refine ⟨by simp [h1], ?_⟩
        rw [List.pairwise_cons]
        refine ⟨?_, h2⟩
        intro x hx
        rcases List.mem_cons.mp hx with rfl | hx
        · exact not_lt.mp hbc
        · exact le_trans (not_lt.mp hbc) (List.rel_of_pairwise_cons h2 hx)

theorem bubbleAux_of_sorted (c : Char) (l : List Char)
    (h : (c :: l).Pairwise (· ≤ ·)) : bubbleAux c l = (c :: l, 0) := by
  induction l generalizing c with
  | nil => simp [bubbleAux]
  | cons b rest ih =>
      have hcb : c ≤ b := List.rel_of_pairwise_cons h (by simp)
      have hbc : ¬ b < c := not_lt.mpr hcb
      have ht := ih b (List.pairwise_cons.mp h).2
      simp [bubbleAux, if_neg hbc, ht]

theorem inversions_of_sorted (l : List Char) (h : l.Pairwise (· ≤ ·)) :
    inversions l = 0 := by
  induction l with
  | nil => rfl
  | cons a rest ih =>
      have h0 : rest.countP (fun b => b < a) = 0 := by
        rw [List.countP_eq_zero]
        intro b hb
        simpa using not_lt.mpr (List.rel_of_pairwise_cons h hb)
      simp [inversions, h0, ih (List.pairwise_cons.mp h).2]

theorem sortPasses_spec (fuel : Nat) (l : List Char) (h : inversions l < fuel) :
    (sortPasses fuel l).1.Pairwise (· ≤ ·) ∧ List.Perm (sortPasses fuel l).1 l ∧
      (sortPasses fuel l).2 = inversions l := by
  induction fuel generalizing l with
  | zero => omega
  | succ fuel ih =>
      cases l with
      | nil => simp [sortPasses, bubblePass, inversions]
      | cons a rest =>
          by_cases hz : (bubbleAux a rest).2 = 0
          · obtain ⟨h1, h2⟩ := bubbleAux_zero a rest hz
            simp [sortPasses, bubblePass, hz, h1, h2,
              inversions_of_sorted _ h2]
          · have hinv := bubbleAux_inversions a rest
            have hlt : inversions (bubbleAux a rest).1 < fuel := by omega
            obtain ⟨ih1, ih2, ih3⟩ := ih (bubbleAux a rest).1 hlt
            refine ⟨?_, ?_, ?_⟩
            · simpa [sortPasses, bubblePass, hz] using ih1
            · simpa [sortPasses, bubblePass, hz] using
                ih2.trans (bubbleAux_perm a rest)
            · simp [sortPasses, bubblePass, hz, ih3]
              omega

theorem sortProduct_spec (l : List Char) :
    (sortProduct l).1.Pairwise (· ≤ ·) ∧ List.Perm (sortProduct l).1 l ∧
      (sortProduct l).2 = inversions l := by
  by_cases h : 1 < l.length
  · simpa [sortProduct, h] using sortPasses_spec (inversions l + 1) l (by omega)
  · cases l with
    | nil => simp [sortProduct, inversions]
    | cons a rest =>
        cases rest with
        | nil => simp [sortProduct, inversions]
        | cons b t => exact absurd (by simp) h

theorem sortProduct_of_sorted (l : List Char) (h : l.Pairwise (· ≤ ·)) :
    sortProduct l = (l, 0) := by
  by_cases hl : 1 < l.length
  · have h0 : inversions l = 0 := inversions_of_sorted l h
    cases l with
    | nil => simp at hl
    | cons a rest =>
        simp [sortProduct, hl, h0, sortPasses, bubblePass,
          bubbleAux_of_sorted a rest h]
  · cases l with
    | nil => simp [sortProduct]
    | cons a rest =>
        cases rest with
        | nil => simp [sortProduct]
        | cons b t => exact absurd (by simp) hl

/-! ## The `Counter` of a word of blocks -/

theorem counterInsert_new (acc : List (Char × Nat)) (c : Char)
    (h : ∀ kv ∈ acc, kv.1 ≠ c) : counterInsert acc c = acc ++ [(c, 1)] := by
  have hb : acc.any (fun kv => kv.1 = c) = false := by
    simp only [List.any_eq_false, decide_eq_true_eq]
    intro kv hkv
    simp [h kv hkv]
  simp [counterInsert, hb]

theorem counterInsert_incr (acc : List (Char × Nat)) (c : Char) (m : Nat)
    (hacc : ∀ kv ∈ acc, kv.1 ≠ c) :
    counterInsert (acc ++ [(c, m)]) c = acc ++ [(c, m + 1)] := by
  have hb : (acc ++ [(c, m)]).any (fun kv => kv.1 = c) = true := by
    simp
  simp only [counterInsert, hb, if_true, List.map_append]
  congr 1
  · calc acc.map (fun kv => if kv.1 = c then (kv.1, kv.2 + 1) else kv)
        = acc.map id := by
          apply List.map_congr_left
          intro kv hkv
          simp [hacc kv hkv]
      _ = acc := List.map_id acc
  · simp

theorem counter_foldl_replicate (k : Nat) (c : Char) (acc : List (Char × Nat)) (m : Nat)
    (hacc : ∀ kv ∈ acc, kv.1 ≠ c) :
    (List.replicate k c).foldl counterInsert (acc ++ [(c, m + 1)])
      = acc ++ [(c, m + 1 + k)] := by
  induction k generalizing m with
  | zero => simp
  | succ k ih =>
      rw [List.replicate_succ, List.foldl_cons, counterInsert_incr acc c (m + 1) hacc,
        show m + 1 + (k + 1) = m + 1 + 1 + k by omega]
      exact ih (m + 1)

theorem counter_foldl_flatten (blocks : List (Char × Nat)) (acc : List (Char × Nat))
    (hpos : ∀ kv ∈ blocks, 0 < kv.2)
    (hdisj : ∀ kv ∈ blocks, ∀ kv' ∈ acc, kv'.1 ≠ kv.1)
    (hnd : (blocks.map Prod.fst).Nodup) :
    (blocks.flatMap (fun kv => List.replicate kv.2 kv.1)).foldl counterInsert acc
      = acc ++ blocks := by
  induction blocks generalizing acc with
  | nil => simp
  | cons hd tl ih =>
      obtain ⟨c, k⟩ := hd
      have hk : 0 < k := hpos (c, k) (by simp)
      obtain ⟨k, rfl⟩ : ∃ k', k = k' + 1 := ⟨k - 1, by omega⟩
      rw [List.flatMap_cons, List.foldl_append]
      have hne : ∀ kv ∈ acc, kv.1 ≠ c := by
        intro kv hkv
        exact hdisj (c, k + 1) (by simp) kv hkv
      have hfirst : (List.replicate (k + 1) c).foldl counterInsert acc
          = acc ++ [(c, k + 1)] := by
        rw [List.replicate_succ, List.foldl_cons, counterInsert_new acc c hne]
        have := counter_foldl_replicate k c acc 0 hne
        simpa [Nat.add_comm] using this
      rw [hfirst, ih (acc ++ [(c, k + 1)])
        (fun kv hkv => hpos kv (by simp [hkv]))
        ?_ (by simpa using (List.nodup_cons.mp (by simpa using hnd)).2)]
      · simp
      · intro kv hkv kv' hkv'
        rcases List.mem_append.mp hkv' with h' | h'
        · exact hdisj kv (by simp [hkv]) kv' h'
        · have : kv' = (c, k + 1) := by simpa using h'
          subst this
          have hcn : c ∉ tl.map Prod.fst := (List.nodup_cons.mp (by simpa using hnd)).1
          intro hcc
          apply hcn
          rw [show c = kv.1 from hcc]
          exact List.mem_map_of_mem Prod.fst hkv

theorem counter_flatten (blocks : List (Char × Nat))
    (hpos : ∀ kv ∈ blocks, 0 < kv.2) (hnd : (blocks.map Prod.fst).Nodup) :
    counter (blocks.flatMap (fun kv => List.replicate kv.2 kv.1)) = blocks := by
  simpa using counter_foldl_flatten blocks [] hpos (by simp) hnd

theorem flatMap_singleton_blocks (l : List Char) :
    (l.map (fun c => (c, 1))).flatMap
      (fun kv : Char × Nat => List.replicate kv.2 kv.1) = l := by
  induction l with
  | nil => rfl
  | cons a t ih => simp [ih]

theorem counter_nodup (l : List Char) (h : l.Nodup) :
    counter l = l.map (fun c => (c, 1)) := by
  have hnd : ((l.map (fun c => (c, 1))).map Prod.fst).Nodup := by
    have hmm : (l.map (fun c => (c, 1))).map Prod.fst = l := by
      rw [List.map_map]
      exact List.map_id l
    rwa [hmm]
  have hpos : ∀ kv ∈ l.map (fun c => (c, 1)), 0 < kv.2 := by
    intro kv hkv
    obtain ⟨c, _, rfl⟩ := List.mem_map.mp hkv
    norm_num
  have := counter_flatten (l.map (fun c => (c, 1))) hpos hnd
  rwa [flatMap_singleton_blocks l] at this

/-! ## Hex digit facts -/

theorem hexStr_of_lt (n : Nat) (h : n < 16) : hexStr n = [hexDigitChar n] := by
  simp [hexStr, hexStrAux, h]

theorem hexVal_hexDigitChar : ∀ n < 16, hexVal (hexDigitChar n) = n := by decide

theorem hexDigitChar_lt : ∀ m < 16, ∀ n < 16, m < n → hexDigitChar m < hexDigitChar n := by
  decide

theorem hexDigitChar_inj : ∀ m < 16, ∀ n < 16, hexDigitChar m = hexDigitChar n → m = n := by
  decide

/-! ## C6: correctness of `_sort_product` -/

/-- C6: on every finite word of digit characters, `_sort_product` terminates
(it is a total function), leaves the word sorted into non-decreasing order,
and returns exactly the number of adjacent transpositions required to sort
the original word, i.e. its inversion count; on an empty or single-letter
word it returns the word unchanged with swap count 0. -/
theorem sort_product_correct (l : List Char) :
    (sortProduct l).1.Pairwise (· ≤ ·) ∧ List.Perm (sortProduct l).1 l ∧
      (sortProduct l).2 = inversions l ∧
      (l.length ≤ 1 → sortProduct l = (l, 0)) := by
  obtain ⟨h1, h2, h3⟩ := sortProduct_spec l
  refine ⟨h1, h2, h3, fun hlen => ?_⟩
  rw [sortProduct, if_neg (by omega)]

/-- Witness for `sort_product_correct` at the single-letter word `"1"`. -/
theorem sort_product_correct_witness :
    sortProduct ['1'] = (['1'], 0) ∧ (sortProduct ['1']).2 = inversions ['1'] :=
  ⟨(sort_product_correct ['1']).2.2.2 (by decide),
   (sort_product_correct ['1']).2.2.1⟩

/-! ## Python indexing facts -/

theorem pyGet_ofNat (l : List Int) (n : Nat) : pyGet l (n : Int) = l.getD n 0 := by
  simp [pyGet]

theorem pyGet_mem_or_zero (l : List Int) (i : Int) :
    pyGet l i ∈ l ∨ pyGet l i = 0 := by
  unfold pyGet
  split
  · rcases Nat.lt_or_ge i.toNat l.length with h | h
    · left
      rw [List.getD_eq_getElem?_getD, List.getElem?_eq_getElem h]
      exact List.getElem_mem h
    · right
      rw [List.getD_eq_getElem?_getD, List.getElem?_eq_none h]
      rfl
  · rcases Nat.lt_or_ge (l.length - (-i).toNat) l.length with h | h
    · left
      rw [List.getD_eq_getElem?_getD, List.getElem?_eq_getElem h]
      exact List.getElem_mem h
    · right
      rw [List.getD_eq_getElem?_getD, List.getElem?_eq_none h]
      rfl

/-! ## The single-hex-digit regime: `d + start_index ≤ 16`

When every generator position `ei < d` satisfies `ei + s < 16`, each
generator renders as one hex character and these characters are strictly
increasing in `ei`. -/

theorem flatMap_hexStr_single (l : List Nat) (s : Nat) (h : ∀ a ∈ l, a + s < 16) :
    l.flatMap (fun a => hexStr (a + s)) = l.map (fun a => hexDigitChar (a + s)) := by
  induction l with
  | nil => rfl
  | cons a t ih =>
      rw [List.flatMap_cons, hexStr_of_lt _ (h a (by simp)),
        ih (fun b hb => h b (by simp [hb])), List.map_cons]
      rfl

theorem bin2canonDigits_single (d s x : Nat) (hd : d + s ≤ 16) :
    bin2canonDigits d s x
      = ((List.range d).filter (fun ei => x.testBit ei)).map
          (fun ei => hexDigitChar (ei + s)) := by
  apply flatMap_hexStr_single
  intro a ha
  have : a < d := List.mem_range.mp (List.mem_of_mem_filter ha)
  omega

theorem bin2canonDigits_sorted (d s x : Nat) (hd : d + s ≤ 16) :
    (bin2canonDigits d s x).Pairwise (· < ·) := by
  rw [bin2canonDigits_single d s x hd, List.pairwise_map]
  have hp : ((List.range d).filter (fun ei => x.testBit ei)).Pairwise (· < ·) :=
    (List.pairwise_lt_range d).sublist (List.filter_sublist _)
  apply hp.imp_of_mem
  intro a b ha hb hab
  have ha' : a < d := List.mem_range.mp (List.mem_of_mem_filter ha)
  have hb' : b < d := List.mem_range.mp (List.mem_of_mem_filter hb)
  exact hexDigitChar_lt (a + s) (by omega) (b + s) (by omega) (by omega)

theorem bin2canonDigits_sorted_le (d s x : Nat) (hd : d + s ≤ 16) :
    (bin2canonDigits d s x).Pairwise (· ≤ ·) :=
  (bin2canonDigits_sorted d s x hd).imp le_of_lt

theorem bin2canonDigits_nodup (d s x : Nat) (hd : d + s ≤ 16) :
    (bin2canonDigits d s x).Nodup :=
  (bin2canonDigits_sorted d s x hd).imp ne_of_lt

theorem filter_range_two_pow (d i : Nat) (hi : i < d) :
    (List.range d).filter (fun ei => (2 ^ i).testBit ei) = [i] := by
  induction d with
  | zero => omega
  | succ d ih =>
      rw [List.range_succ, List.filter_append]
      by_cases h : i = d
      · subst h
        have h1 : (List.range i).filter (fun ei => (2 ^ i).testBit ei) = [] := by
          rw [List.filter_eq_nil_iff]
          intro a ha
          have hne : i ≠ a := by
            have := List.mem_range.mp ha
            omega
          simp [Nat.testBit_two_pow_of_ne hne]
        simp [h1, Nat.testBit_two_pow_self]
      · have hi' : i < d := by omega
        rw [ih hi']
        have hbit : (2 ^ i).testBit d = false := Nat.testBit_two_pow_of_ne h
        simp [hbit]

/-! ## The Cayley entry of a squared generator -/

theorem cayleyPair_square_char (sig : List Int) (s : Nat) (c : Char) :
    cayleyPair sig s [c] [c]
      = (0, pyGet sig ((hexVal c : Int) - (s : Int)),
          if pyGet sig ((hexVal c : Int) - (s : Int)) = 0 then ['0']
          else if pyGet sig ((hexVal c : Int) - (s : Int)) = -1 then ['-', 'e']
          else ['e']) := by
  have hsorted : ([c, c] : List Char).Pairwise (· ≤ ·) := by
    simp [List.pairwise_cons]
  have hsp : sortProduct ([c] ++ [c]) = ([c, c], 0) :=
    sortProduct_of_sorted [c, c] hsorted
  have hcnt : counter [c, c] = [(c, 2)] := by
    have := counter_flatten [(c, 2)] (by norm_num) (by simp)
    simpa [List.flatMap, List.replicate] using this
  set P := pyGet sig ((hexVal c : Int) - (s : Int)) with hP
  have hsign : signFold sig s 1 [(c, 2)] = P := by
    simp [signFold]
  have hres : residue [(c, 2)] = [] := by simp [residue]
  simp only [cayleyPair, hsp, hcnt, hres]
  by_cases h0 : P = 0
  · simp [hsign, h0]
  · by_cases h1 : P = -1
    · simp [hsign, h0, h1]
    · simp [hsign, h0, h1]

/-! ## C1: diagonal Cayley entries for generators -/

/-- C1 (amended to the single-hex-digit regime `d + start_index ≤ 16`): for
every signature over `{+1, -1, 0}` and every generator `i`, generator `i`'s
canonical name is `'e'` followed by the single digit `hexDigitChar (i + s)`,
and the Cayley builder gives the pair `(e_i, e_i)` swap count 0, sign-table
entry `Signature[i]`, and Cayley entry `"0"` when `Signature[i] = 0`, `"-e"`
when `Signature[i] = -1`, and `"e"` when `Signature[i] = +1`. -/
theorem cayley_diagonal_squares (sig : List Int) (i : Nat)
    (hv : ∀ v ∈ sig, v = 1 ∨ v = -1 ∨ v = 0)
    (hi : i < sig.length) (hd : sig.length + startOf sig ≤ 16) :
    bin2canon sig.length (startOf sig) (2 ^ i)
        = ['e', hexDigitChar (i + startOf sig)] ∧
    cayleyPair sig (startOf sig)
        [hexDigitChar (i + startOf sig)] [hexDigitChar (i + startOf sig)]
      = (0, sig.getD i 0,
          if sig.getD i 0 = 0 then ['0']
          else if sig.getD i 0 = -1 then ['-', 'e'] else ['e']) := by
  set s := startOf sig with hs
  have hname : bin2canon sig.length s (2 ^ i) = ['e', hexDigitChar (i + s)] := by
    rw [bin2canon, bin2canonDigits_single _ _ _ hd, filter_range_two_pow _ i hi]
    rfl
  refine ⟨hname, ?_⟩
  rw [cayleyPair_square_char sig s (hexDigitChar (i + s))]
  have hval : hexVal (hexDigitChar (i + s)) = i + s :=
    hexVal_hexDigitChar (i + s) (by omega)
  have hidx : ((hexVal (hexDigitChar (i + s)) : Int) - (s : Int)) = (i : Int) := by
    rw [hval]
    push_cast
    ring
  rw [hidx, pyGet_ofNat]

/-- Witness for `cayley_diagonal_squares` on the signature `[1, -1]`
(so `p = 1`, `q = 1`, resolved start index 1) at generator `i = 1`. -/
theorem cayley_diagonal_squares_witness :
    bin2canon 2 1 (2 ^ 1) = ['e', '2'] ∧
    cayleyPair [1, -1] 1 ['2'] ['2'] = (0, -1, ['-', 'e']) := by
  have h := cayley_diagonal_squares [1, -1] 1 (by decide) (by decide) (by decide)
  revert h
  decide

/-- C1 counterexample (the claim as stated, over every algebra): in the
algebra with signature of eighteen `+1`s the resolved start index is 1,
generator 17's canonical name is `"e12"` (two hex digits), and the Cayley
builder gives the pair of that name with itself the sign `-1`, although
`Signature[17] = 1`; the diagonal rule fails. -/
theorem cayley_diagonal_squares_cex :
    (∀ v ∈ List.replicate 18 (1 : Int), v = 1 ∨ v = -1 ∨ v = 0) ∧
    startOf (List.replicate 18 (1 : Int)) = 1 ∧
    bin2canon 18 1 (2 ^ 17) = ['e', '1', '2'] ∧
    (List.replicate 18 (1 : Int)).getD 17 0 = 1 ∧
    cayleyPair (List.replicate 18 (1 : Int)) 1 ['1', '2'] ['1', '2']
      = (1, -1, ['-', 'e']) := by
  decide
/-! ## C2: anticommutativity of distinct generators -/

theorem cayleyPair_distinct_chars (sig : List Int) (s : Nat) (a b : Char)
    (hab : a < b) :
    cayleyPair sig s [a] [b] = (0, 1, ['e', a, b]) ∧
    cayleyPair sig s [b] [a] = (1, -1, ['-', 'e', a, b]) := by
  have hne : a ≠ b := ne_of_lt hab
  have hba : ¬ b < a := asymm hab
  have hcnt : counter [a, b] = [(a, 1), (b, 1)] := by
    have := counter_nodup [a, b] (by simp [hne])
    simpa using this
  have hsp1 : sortProduct ([a] ++ [b]) = ([a, b], 0) :=
    sortProduct_of_sorted [a, b] (by simp [List.pairwise_cons, le_of_lt hab])
  have hsp2 : sortProduct ([b] ++ [a]) = ([a, b], 1) := by
    have hinv : inversions [b, a] = 1 := by
      simp [inversions, List.countP_cons, hab]
    simp [sortProduct, sortPasses, bubblePass, bubbleAux, hinv, hab, hba]
  have hsign : signFold sig s 1 [(a, 1), (b, 1)] = 1 := by
    simp [signFold]
  have hsign2 : signFold sig s (-1) [(a, 1), (b, 1)] = -1 := by
    simp [signFold]
  have hres : residue [(a, 1), (b, 1)] = [a, b] := by
    simp [residue, List.replicate]
  constructor
  · simp only [cayleyPair, hsp1, hcnt, hres]
    simp [hsign]
  · simp only [cayleyPair, hsp2, hcnt, hres]
    simp [hsign2]

/-- C2 (amended to the single-hex-digit regime `d + start_index ≤ 16`): for
every signature over `{+1, -1, 0}` and distinct generators `i ≠ j` with
nonzero signature entries, the Cayley entries for `(e_i, e_j)` and
`(e_j, e_i)` are the same blade name with opposite signs, and the sign-table
entries are negatives of each other and nonzero. -/
theorem cayley_anticommutativity (sig : List Int) (i j : Nat)
    (hv : ∀ v ∈ sig, v = 1 ∨ v = -1 ∨ v = 0)
    (hij : i ≠ j) (hi : i < sig.length) (hj : j < sig.length)
    (hd : sig.length + startOf sig ≤ 16)
    (hnzi : sig.getD i 0 ≠ 0) (hnzj : sig.getD j 0 ≠ 0) :
    (cayleyPair sig (startOf sig)
        [hexDigitChar (i + startOf sig)] [hexDigitChar (j + startOf sig)]).2.1
      = -(cayleyPair sig (startOf sig)
        [hexDigitChar (j + startOf sig)] [hexDigitChar (i + startOf sig)]).2.1 ∧
    (cayleyPair sig (startOf sig)
        [hexDigitChar (i + startOf sig)] [hexDigitChar (j + startOf sig)]).2.1 ≠ 0 ∧
    ∃ blade : List Char,
      ((cayleyPair sig (startOf sig)
          [hexDigitChar (i + startOf sig)] [hexDigitChar (j + startOf sig)]).2.2
            = 'e' :: blade ∧
        (cayleyPair sig (startOf sig)
          [hexDigitChar (j + startOf sig)] [hexDigitChar (i + startOf sig)]).2.2
            = '-' :: 'e' :: blade) ∨
      ((cayleyPair sig (startOf sig)
          [hexDigitChar (i + startOf sig)] [hexDigitChar (j + startOf sig)]).2.2
            = '-' :: 'e' :: blade ∧
        (cayleyPair sig (startOf sig)
          [hexDigitChar (j + startOf sig)] [hexDigitChar (i + startOf sig)]).2.2
            = 'e' :: blade) := by
  set s := startOf sig with hs
  set a := hexDigitChar (i + s) with ha
  set b := hexDigitChar (j + s) with hb
  have hne : a ≠ b := by
    intro h
    have := hexDigitChar_inj (i + s) (by omega) (j + s) (by omega) h
    omega
  rcases lt_or_gt_of_ne hne with hlt | hgt
  · obtain ⟨h1, h2⟩ := cayleyPair_distinct_chars sig s a b hlt
    rw [h1, h2]
    exact ⟨by norm_num, by norm_num, [a, b], Or.inl ⟨rfl, rfl⟩⟩
  · obtain ⟨h1, h2⟩ := cayleyPair_distinct_chars sig s b a hgt
    rw [h1, h2]
    exact ⟨by norm_num, by norm_num, [b, a], Or.inr ⟨rfl, rfl⟩⟩

/-- Witness for `cayley_anticommutativity` on the signature `[1, -1]` at the
generator pair `(0, 1)`. -/
theorem cayley_anticommutativity_witness :
    (cayleyPair [1, -1] (startOf [1, -1])
        [hexDigitChar (0 + startOf [1, -1])] [hexDigitChar (1 + startOf [1, -1])]).2.1
      = -(cayleyPair [1, -1] (startOf [1, -1])
        [hexDigitChar (1 + startOf [1, -1])] [hexDigitChar (0 + startOf [1, -1])]).2.1 ∧
    (cayleyPair [1, -1] (startOf [1, -1])
        [hexDigitChar (0 + startOf [1, -1])] [hexDigitChar (1 + startOf [1, -1])]).2.1 ≠ 0 ∧
    ∃ blade : List Char,
      ((cayleyPair [1, -1] (startOf [1, -1])
          [hexDigitChar (0 + startOf [1, -1])] [hexDigitChar (1 + startOf [1, -1])]).2.2
            = 'e' :: blade ∧
        (cayleyPair [1, -1] (startOf [1, -1])
          [hexDigitChar (1 + startOf [1, -1])] [hexDigitChar (0 + startOf [1, -1])]).2.2
            = '-' :: 'e' :: blade) ∨
      ((cayleyPair [1, -1] (startOf [1, -1])
          [hexDigitChar (0 + startOf [1, -1])] [hexDigitChar (1 + startOf [1, -1])]).2.2
            = '-' :: 'e' :: blade ∧
        (cayleyPair [1, -1] (startOf [1, -1])
          [hexDigitChar (1 + startOf [1, -1])] [hexDigitChar (0 + startOf [1, -1])]).2.2
            = 'e' :: blade) :=
  cayley_anticommutativity [1, -1] 0 1 (by decide) (by decide) (by decide)
    (by decide) (by decide) (by decide) (by decide)

/-- C2 counterexample (the claim as stated, over every algebra): in the
algebra with seventeen `+1` generators (resolved start index 1), the distinct
generators 15 and 16 have names `"e10"` and `"e11"`, both with signature
entry `+1`, yet the products `e10·e11` and `e11·e10` receive the same sign
`-1` and the same entry `"-e01"` — the signs are not opposite. -/
theorem cayley_anticommutativity_cex :
    startOf (List.replicate 17 (1 : Int)) = 1 ∧
    bin2canon 17 1 (2 ^ 15) = ['e', '1', '0'] ∧
    bin2canon 17 1 (2 ^ 16) = ['e', '1', '1'] ∧
    (List.replicate 17 (1 : Int)).getD 15 0 = 1 ∧
    (List.replicate 17 (1 : Int)).getD 16 0 = 1 ∧
    cayleyPair (List.replicate 17 (1 : Int)) 1 ['1', '0'] ['1', '1']
      = (1, -1, ['-', 'e', '0', '1']) ∧
    cayleyPair (List.replicate 17 (1 : Int)) 1 ['1', '1'] ['1', '0']
      = (3, -1, ['-', 'e', '0', '1']) := by
  decide

/-! ## C3: the blade-name bijection -/

theorem map_hexDigitChar_inj (s : Nat) (l₁ l₂ : List Nat)
    (h₁ : ∀ a ∈ l₁, a + s < 16) (h₂ : ∀ a ∈ l₂, a + s < 16)
    (h : l₁.map (fun a => hexDigitChar (a + s))
        = l₂.map (fun a => hexDigitChar (a + s))) :
    l₁ = l₂ := by
  induction l₁ generalizing l₂ with
  | nil => cases l₂ <;> simp_all
  | cons a t ih =>
      cases l₂ with
      | nil => simp_all
      | cons b u =>
          simp only [List.map_cons, List.cons.injEq] at h
          have hab : a = b := by
            have := hexDigitChar_inj (a + s) (h₁ a (by simp)) (b + s)
              (h₂ b (by simp)) h.1
            omega
          subst hab
          rw [ih u (fun c hc => h₁ c (by simp [hc]))
            (fun c hc => h₂ c (by simp [hc])) h.2]

theorem bin2canon_inj (d s x y : Nat) (hd : d + s ≤ 16)
    (hx : x < 2 ^ d) (hy : y < 2 ^ d)
    (h : bin2canon d s x = bin2canon d s y) : x = y := by
  have hdig : bin2canonDigits d s x = bin2canonDigits d s y := by
    simpa [bin2canon] using h
  rw [bin2canonDigits_single d s x hd, bin2canonDigits_single d s y hd] at hdig
  have hfilters : (List.range d).filter (fun ei => x.testBit ei)
      = (List.range d).filter (fun ei => y.testBit ei) := by
    apply map_hexDigitChar_inj s _ _ ?_ ?_ hdig
    · intro a ha
      have := List.mem_range.mp (List.mem_of_mem_filter ha)
      omega
    · intro a ha
      have := List.mem_range.mp (List.mem_of_mem_filter ha)
      omega
  apply Nat.eq_of_testBit_eq
  intro ei
  by_cases hei : ei < d
  · have h1 : (ei ∈ (List.range d).filter (fun ei => x.testBit ei))
        ↔ (ei ∈ (List.range d).filter (fun ei => y.testBit ei)) := by
      rw [hfilters]
    simp only [List.mem_filter, List.mem_range] at h1
    cases hxb : x.testBit ei <;> cases hyb : y.testBit ei
    · rfl
    · exact absurd (h1.mpr ⟨hei, hyb⟩).2 (by simp [hxb])
    · exact absurd (h1.mp ⟨hei, hxb⟩).2 (by simp [hyb])
    · rfl
  · have hxb : x.testBit ei = false :=
      Nat.testBit_lt_two_pow
        (lt_of_lt_of_le hx (Nat.pow_le_pow_right (by norm_num) (by omega)))
    have hyb : y.testBit ei = false :=
      Nat.testBit_lt_two_pow
        (lt_of_lt_of_le hy (Nat.pow_le_pow_right (by norm_num) (by omega)))
    rw [hxb, hyb]

theorem foldl_noMatch (f : Nat → List Char) (c : List Char) (l : List Nat)
    (init : Option Nat) (h : ∀ y ∈ l, f y ≠ c) :
    l.foldl (fun acc b => if f b = c then some b else acc) init = init := by
  induction l generalizing init with
  | nil => rfl
  | cons a t ih =>
      rw [List.foldl_cons, if_neg (h a (by simp)),
        ih init (fun y hy => h y (by simp [hy]))]

theorem canon2bin_bin2canon (d s x : Nat) (hd : d + s ≤ 16) (hx : x < 2 ^ d) :
    canon2bin d s (bin2canon d s x) = some x := by
  unfold canon2bin
  have hx' : x ∈ List.range (2 ^ d) := List.mem_range.mpr hx
  obtain ⟨l₁, l₂, hsplit⟩ := List.append_of_mem hx'
  have hnd : (List.range (2 ^ d)).Nodup := List.nodup_range (2 ^ d)
  rw [hsplit] at hnd
  have hxl₂ : x ∉ l₂ := by
    have := (List.nodup_append.mp hnd).2.1
    exact (List.nodup_cons.mp this).1
  rw [hsplit, List.foldl_append, List.foldl_cons, if_pos rfl]
  apply foldl_noMatch
  intro y hy hfy
  have hyr : y ∈ List.range (2 ^ d) := by
    rw [hsplit]
    simp [hy]
  have hyx : y = x :=
    bin2canon_inj d s y x hd (List.mem_range.mp hyr) hx hfy
  exact hxl₂ (hyx ▸ hy)

/-- C3 (amended to the single-hex-digit regime `d + start_index ≤ 16`, i.e.
every generator renders as one hex character): `bin2canon` is injective over
`[0, 2^d)` and `canon2bin[bin2canon[index]] = index` for every index, so the
two maps form a total bijection between `[0, 2^d)` and the canonical names. -/
theorem blade_name_bijection (d s x y : Nat) (hd : d + s ≤ 16)
    (hx : x < 2 ^ d) (hy : y < 2 ^ d) :
    (bin2canon d s x = bin2canon d s y → x = y) ∧
    canon2bin d s (bin2canon d s x) = some x :=
  ⟨bin2canon_inj d s x y hd hx hy, canon2bin_bin2canon d s x hd hx⟩

/-- Witness for `blade_name_bijection` in the 2-dimensional algebra with
start index 1 at the indices 1 and 2. -/
theorem blade_name_bijection_witness :
    (bin2canon 2 1 1 = bin2canon 2 1 2 → 1 = 2) ∧
    canon2bin 2 1 (bin2canon 2 1 1) = some 1 :=
  blade_name_bijection 2 1 1 2 (by decide) (by decide) (by decide)

/-- C3 counterexample (the claim as stated, for every dimension): at `d = 18`
with resolved start index 1 (no null generators), the indices `3 = e_0 e_1`
and `2^17 = e_17` render to the same canonical name `"e12"`, so `bin2canon`
is not injective over `[0, 2^18)` and the maps are not a bijection. -/
theorem blade_name_bijection_cex :
    resolveStartIndex ((List.replicate 18 (1 : Int)).count 0) none = 1 ∧
    bin2canon 18 1 3 = ['e', '1', '2'] ∧
    bin2canon 18 1 131072 = ['e', '1', '2'] ∧
    (3 : Nat) ≠ 131072 ∧ (3 : Nat) < 2 ^ 18 ∧ (131072 : Nat) < 2 ^ 18 := by
  decide

/-! ## C10: the scalar blade `'e'` as a two-sided identity -/

theorem signFold_ones (sig : List Int) (s : Nat) (v : Int) (l : List Char) :
    signFold sig s v (l.map (fun c => (c, 1))) = v := by
  induction l generalizing v with
  | nil => rfl
  | cons a t ih =>
      rw [List.map_cons, signFold, List.foldl_cons]
      simpa [signFold] using ih v

theorem residue_ones (l : List Char) : residue (l.map (fun c => (c, 1))) = l := by
  induction l with
  | nil => rfl
  | cons a t ih =>
      simp only [List.map_cons, residue, List.flatMap_cons]
      simpa [residue] using ih

theorem bin2canonDigits_zero (d s : Nat) : bin2canonDigits d s 0 = [] := by
  simp [bin2canonDigits, Nat.zero_testBit]

theorem cayleyPair_scalar_left (sig : List Int) (s : Nat) (L : List Char)
    (hsorted : L.Pairwise (· ≤ ·)) (hnodup : L.Nodup) :
    cayleyPair sig s [] L = (0, 1, 'e' :: L) ∧
    cayleyPair sig s L [] = (0, 1, 'e' :: L) := by
  have hsp : sortProduct L = (L, 0) := sortProduct_of_sorted L hsorted
  have hcnt : counter L = L.map (fun c => (c, 1)) := counter_nodup L hnodup
  constructor
  · simp only [cayleyPair, List.nil_append, hsp, hcnt, signFold_ones,
      residue_ones]
    norm_num
  · simp only [cayleyPair, List.append_nil, hsp, hcnt, signFold_ones,
      residue_ones]
    norm_num

/-- C10 (amended to the single-hex-digit regime `d + start_index ≤ 16`): for
every algebra, the scalar blade `'e'` (index 0, empty digit string) is a
two-sided identity of the Cayley table: for every blade `x < 2^d` the pairs
`('e', x)` and `(x, 'e')` both receive swap count 0, sign 1, and the Cayley
entry equal to `x`'s own canonical name with positive sign. -/
theorem scalar_blade_identity (sig : List Int) (x : Nat)
    (hx : x < 2 ^ sig.length) (hd : sig.length + startOf sig ≤ 16) :
    cayleyPair sig (startOf sig) (bin2canonDigits sig.length (startOf sig) 0)
        (bin2canonDigits sig.length (startOf sig) x)
      = (0, 1, bin2canon sig.length (startOf sig) x) ∧
    cayleyPair sig (startOf sig) (bin2canonDigits sig.length (startOf sig) x)
        (bin2canonDigits sig.length (startOf sig) 0)
      = (0, 1, bin2canon sig.length (startOf sig) x) := by
  rw [bin2canonDigits_zero]
  exact cayleyPair_scalar_left sig (startOf sig)
    (bin2canonDigits sig.length (startOf sig) x)
    (bin2canonDigits_sorted_le _ _ _ hd) (bin2canonDigits_nodup _ _ _ hd)

/-- Witness for `scalar_blade_identity` in the algebra with signature
`[1, 1]` at the pseudoscalar index 3. -/
theorem scalar_blade_identity_witness :
    cayleyPair [1, 1] (startOf [1, 1]) (bin2canonDigits 2 (startOf [1, 1]) 0)
        (bin2canonDigits 2 (startOf [1, 1]) 3)
      = (0, 1, bin2canon 2 (startOf [1, 1]) 3) ∧
    cayleyPair [1, 1] (startOf [1, 1]) (bin2canonDigits 2 (startOf [1, 1]) 3)
        (bin2canonDigits 2 (startOf [1, 1]) 0)
      = (0, 1, bin2canon 2 (startOf [1, 1]) 3) :=
  scalar_blade_identity [1, 1] 3 (by decide) (by decide)

/-- C10 counterexample (the claim as stated, over every algebra): at `d = 16`
with sixteen `+1` generators (start index 1), generator 15's name is
`"e10"`, whose digit word `"10"` is not sorted; the product `'e' · e10` gets
1 swap, sign `-1`, and entry `"-e01"` instead of `"e10"` with sign `+1`, so
the scalar blade is not an identity there. -/
theorem scalar_blade_identity_cex :
    startOf (List.replicate 16 (1 : Int)) = 1 ∧
    bin2canon 16 1 (2 ^ 15) = ['e', '1', '0'] ∧
    bin2canonDigits 16 1 0 = [] ∧
    cayleyPair (List.replicate 16 (1 : Int)) 1 [] ['1', '0']
      = (1, -1, ['-', 'e', '0', '1']) ∧
    cayleyPair (List.replicate 16 (1 : Int)) 1 ['1', '0'] []
      = (1, -1, ['-', 'e', '0', '1']) := by
  decide

/-! ## C4: well-formedness of sign and Cayley entries

For blades `x, y` in the single-hex-digit regime, the sorted product word is
the concatenation, over generator positions in increasing order, of one copy
of the generator's digit per operand containing it; its `Counter` is the
corresponding run-length list, and the surviving digits are exactly the
digits of `x ^^^ y`. -/

/-- Number of copies of generator `ei`'s digit contributed by the pair
`(x, y)`. -/
def bitCnt (x y ei : Nat) : Nat :=
  (if x.testBit ei then 1 else 0) + (if y.testBit ei then 1 else 0)

theorem pairwise_flatMap_replicate (l : List Nat) (f : Nat → Char) (k : Nat → Nat)
    (h : l.Pairwise (fun a b => f a < f b)) :
    (l.flatMap (fun a => List.replicate (k a) (f a))).Pairwise (· ≤ ·) := by
  induction l with
  | nil => simp
  | cons a t ih =>
      rw [List.flatMap_cons, List.pairwise_append]
      refine ⟨?_, ih (List.pairwise_cons.mp h).2, ?_⟩
      · exact List.pairwise_replicate.mpr (Or.inr (le_refl (f a)))
      · intro u hu v hv
        obtain ⟨b, hb, hv'⟩ := List.mem_flatMap.mp hv
        rw [List.eq_of_mem_replicate hu, List.eq_of_mem_replicate hv']
        exact le_of_lt (List.rel_of_pairwise_cons h hb)

theorem flatMap_replicate_add_perm (l : List Nat) (f : Nat → Char)
    (k₁ k₂ : Nat → Nat) :
    List.Perm (l.flatMap (fun a => List.replicate (k₁ a + k₂ a) (f a)))
      (l.flatMap (fun a => List.replicate (k₁ a) (f a))
        ++ l.flatMap (fun a => List.replicate (k₂ a) (f a))) := by
  induction l with
  | nil => simp
  | cons a t ih =>
      rw [List.flatMap_cons, List.flatMap_cons, List.flatMap_cons,
        List.replicate_add, List.append_assoc, List.append_assoc]
      apply List.Perm.append_left (List.replicate (k₁ a) (f a))
      exact (List.Perm.append_left _ ih).trans (List.perm_append_comm_assoc _ _ _)

theorem flatMap_replicate_ite (l : List Nat) (f : Nat → Char) (p : Nat → Bool) :
    l.flatMap (fun a => List.replicate (if p a then 1 else 0) (f a))
      = (l.filter p).map f := by
  induction l with
  | nil => rfl
  | cons a t ih =>
      by_cases hp : p a
      · simp [List.filter_cons, hp, ih]
      · simp [List.filter_cons, hp, ih]

theorem flatMap_filter_support (l : List Nat) (g : Nat → List Char) (p : Nat → Bool)
    (h : ∀ a ∈ l, ¬ p a → g a = []) :
    (l.filter p).flatMap g = l.flatMap g := by
  induction l with
  | nil => rfl
  | cons a t ih =>
      by_cases hp : p a
      · simp only [List.filter_cons, hp, if_true, List.flatMap_cons]
        rw [ih (fun b hb hnb => h b (by simp [hb]) hnb)]
      · simp only [List.filter_cons, hp, if_false, List.flatMap_cons,
          h a (by simp) hp, List.nil_append]
        exact ih (fun b hb hnb => h b (by simp [hb]) hnb)

theorem map_hexDigitChar_filter_sorted (d s : Nat) (p : Nat → Bool)
    (hd : d + s ≤ 16) :
    (((List.range d).filter p).map (fun ei => hexDigitChar (ei + s))).Pairwise
      (· < ·) := by
  rw [List.pairwise_map]
  have hp : ((List.range d).filter p).Pairwise (· < ·) :=
    (List.pairwise_lt_range d).sublist (List.filter_sublist _)
  apply hp.imp_of_mem
  intro a b ha hb hab
  have ha' : a < d := List.mem_range.mp (List.mem_of_mem_filter ha)
  have hb' : b < d := List.mem_range.mp (List.mem_of_mem_filter hb)
  exact hexDigitChar_lt (a + s) (by omega) (b + s) (by omega) (by omega)

theorem signFold_cons (sig : List Int) (s : Nat) (v : Int) (kv : Char × Nat)
    (t : List (Char × Nat)) :
    signFold sig s v (kv :: t)
      = signFold sig s
          (if kv.2 / 2 ≠ 0 then v * pyGet sig ((hexVal kv.1 : Int) - (s : Int))
           else v) t := rfl

theorem signFold_mem (sig : List Int) (s : Nat) (v : Int) (cnt : List (Char × Nat))
    (hv : ∀ w ∈ sig, w = 1 ∨ w = -1 ∨ w = 0) (h0 : v = 1 ∨ v = -1 ∨ v = 0) :
    signFold sig s v cnt = 1 ∨ signFold sig s v cnt = -1 ∨
      signFold sig s v cnt = 0 := by
  induction cnt generalizing v with
  | nil => exact h0
  | cons kv t ih =>
      rw [signFold_cons]
      apply ih
      split
      · have hp3 : pyGet sig ((hexVal kv.1 : Int) - (s : Int)) = 1 ∨
            pyGet sig ((hexVal kv.1 : Int) - (s : Int)) = -1 ∨
            pyGet sig ((hexVal kv.1 : Int) - (s : Int)) = 0 := by
          rcases pyGet_mem_or_zero sig ((hexVal kv.1 : Int) - (s : Int)) with hm | hz
          · exact hv _ hm
          · exact Or.inr (Or.inr hz)
        rcases h0 with rfl | rfl | rfl <;> rcases hp3 with h | h | h <;>
          rw [h] <;> norm_num
      · exact h0

/-- The sorted word, `Counter`, and residue of a blade pair in the
single-hex-digit regime. -/
theorem cayley_word_structure (sig : List Int) (s : Nat) (x y d : Nat)
    (hdim : d + s ≤ 16) (hx : x < 2 ^ d) (hy : y < 2 ^ d) :
    (sortProduct (bin2canonDigits d s x ++ bin2canonDigits d s y)).1
        = (List.range d).flatMap
            (fun ei => List.replicate (bitCnt x y ei) (hexDigitChar (ei + s))) ∧
    counter ((List.range d).flatMap
        (fun ei => List.replicate (bitCnt x y ei) (hexDigitChar (ei + s))))
      = ((List.range d).filter (fun ei => bitCnt x y ei ≠ 0)).map
          (fun ei => (hexDigitChar (ei + s), bitCnt x y ei)) ∧
    residue (((List.range d).filter (fun ei => bitCnt x y ei ≠ 0)).map
        (fun ei => (hexDigitChar (ei + s), bitCnt x y ei)))
      = bin2canonDigits d s (x ^^^ y) := by
  set F : List Char := (List.range d).flatMap
    (fun ei => List.replicate (bitCnt x y ei) (hexDigitChar (ei + s))) with hF
  have hFsorted : F.Pairwise (· ≤ ·) := by
    apply pairwise_flatMap_replicate
    apply (List.pairwise_lt_range d).imp_of_mem
    intro a b ha hb hab
    exact hexDigitChar_lt (a + s) (by have := List.mem_range.mp ha; omega)
      (b + s) (by have := List.mem_range.mp hb; omega) (by omega)
  have hFperm : List.Perm F (bin2canonDigits d s x ++ bin2canonDigits d s y) := by
    have h1 := flatMap_replicate_add_perm (List.range d)
      (fun ei => hexDigitChar (ei + s))
      (fun ei => if x.testBit ei then 1 else 0)
      (fun ei => if y.testBit ei then 1 else 0)
    have h2 := flatMap_replicate_ite (List.range d)
      (fun ei => hexDigitChar (ei + s)) (fun ei => x.testBit ei)
    have h3 := flatMap_replicate_ite (List.range d)
      (fun ei => hexDigitChar (ei + s)) (fun ei => y.testBit ei)
    rw [h2, h3, ← bin2canonDigits_single d s x hdim,
      ← bin2canonDigits_single d s y hdim] at h1
    exact h1
  obtain ⟨hssorted, hsperm, _⟩ :=
    sortProduct_spec (bin2canonDigits d s x ++ bin2canonDigits d s y)
  have hword : (sortProduct (bin2canonDigits d s x ++ bin2canonDigits d s y)).1
      = F := by
    apply List.eq_of_perm_of_sorted (hsperm.trans hFperm.symm) hssorted hFsorted
  constructor
  · exact hword
  have hflat : (((List.range d).filter (fun ei => bitCnt x y ei ≠ 0)).map
        (fun ei => (hexDigitChar (ei + s), bitCnt x y ei))).flatMap
        (fun kv => List.replicate kv.2 kv.1) = F := by
    rw [List.flatMap_map]
    rw [hF]
    apply flatMap_filter_support
    intro a _ hna
    have : bitCnt x y a = 0 := by
      by_contra hne
      exact hna (by simpa using hne)
    simp [Function.comp, this]
  have hkeys : ((((List.range d).filter (fun ei => bitCnt x y ei ≠ 0)).map
      (fun ei => (hexDigitChar (ei + s), bitCnt x y ei))).map Prod.fst).Nodup := by
    rw [List.map_map]
    have : (Prod.fst ∘ fun ei => (hexDigitChar (ei + s), bitCnt x y ei))
        = fun ei => hexDigitChar (ei + s) := rfl
    rw [this]
    exact (map_hexDigitChar_filter_sorted d s _ hdim).imp ne_of_lt
  have hpos : ∀ kv ∈ ((List.range d).filter (fun ei => bitCnt x y ei ≠ 0)).map
      (fun ei => (hexDigitChar (ei + s), bitCnt x y ei)), 0 < kv.2 := by
    intro kv hkv
    obtain ⟨a, ha, rfl⟩ := List.mem_map.mp hkv
    have := List.mem_filter.mp ha
    simp only [ne_eq, decide_eq_true_eq] at this
    omega
  constructor
  · rw [← hflat]
    exact counter_flatten _ hpos hkeys
  · unfold residue
    rw [List.flatMap_map]
    show ((List.range d).filter (fun ei => bitCnt x y ei ≠ 0)).flatMap
        (fun a => List.replicate (bitCnt x y a % 2) (hexDigitChar (a + s)))
      = bin2canonDigits d s (x ^^^ y)
    have hsupp : ∀ a ∈ List.range d, ¬ (fun ei => decide (bitCnt x y ei ≠ 0)) a →
        (fun a => List.replicate (bitCnt x y a % 2) (hexDigitChar (a + s))) a = [] := by
      intro a _ hna
      have h0 : bitCnt x y a = 0 := by
        by_contra hne
        exact hna (by simpa using hne)
      simp [h0]
    rw [flatMap_filter_support (List.range d)
      (fun a => List.replicate (bitCnt x y a % 2) (hexDigitChar (a + s)))
      (fun ei => bitCnt x y ei ≠ 0) hsupp]
    have hpt : (fun ei => List.replicate (bitCnt x y ei % 2) (hexDigitChar (ei + s)))
        = fun ei => List.replicate (if (x ^^^ y).testBit ei then 1 else 0)
            (hexDigitChar (ei + s)) := by
      funext ei
      have hbit : (x ^^^ y).testBit ei = ((x.testBit ei) ^^ (y.testBit ei)) :=
        Nat.testBit_xor x y ei
      unfold bitCnt
      cases hxb : x.testBit ei <;> cases hyb : y.testBit ei <;>
        simp [hbit, hxb, hyb]
    rw [hpt, flatMap_replicate_ite, ← bin2canonDigits_single d s (x ^^^ y) hdim]

/-- C4 (amended to the single-hex-digit regime `d + start_index ≤ 16`): for
every algebra over `{+1, -1, 0}` and every ordered pair of blades `x, y`,
the sign-table entry lies in `{1, -1, 0}` and the Cayley entry is either the
literal zero string or the canonical name of the blade `x ^^^ y` (an index
in `[0, 2^d)`, whose digit string is strictly sorted), optionally prefixed
by one leading minus. -/
theorem cayley_entries_wellformed (sig : List Int) (x y : Nat)
    (hv : ∀ v ∈ sig, v = 1 ∨ v = -1 ∨ v = 0)
    (hx : x < 2 ^ sig.length) (hy : y < 2 ^ sig.length)
    (hd : sig.length + startOf sig ≤ 16) :
    ((cayleyPair sig (startOf sig) (bin2canonDigits sig.length (startOf sig) x)
        (bin2canonDigits sig.length (startOf sig) y)).2.1 = 1 ∨
     (cayleyPair sig (startOf sig) (bin2canonDigits sig.length (startOf sig) x)
        (bin2canonDigits sig.length (startOf sig) y)).2.1 = -1 ∨
     (cayleyPair sig (startOf sig) (bin2canonDigits sig.length (startOf sig) x)
        (bin2canonDigits sig.length (startOf sig) y)).2.1 = 0) ∧
    ((cayleyPair sig (startOf sig) (bin2canonDigits sig.length (startOf sig) x)
        (bin2canonDigits sig.length (startOf sig) y)).2.2 = ['0'] ∨
     (cayleyPair sig (startOf sig) (bin2canonDigits sig.length (startOf sig) x)
        (bin2canonDigits sig.length (startOf sig) y)).2.2
          = bin2canon sig.length (startOf sig) (x ^^^ y) ∨
     (cayleyPair sig (startOf sig) (bin2canonDigits sig.length (startOf sig) x)
        (bin2canonDigits sig.length (startOf sig) y)).2.2
          = '-' :: bin2canon sig.length (startOf sig) (x ^^^ y)) ∧
    x ^^^ y < 2 ^ sig.length ∧
    (bin2canonDigits sig.length (startOf sig) (x ^^^ y)).Pairwise (· < ·) := by
  set s := startOf sig with hs
  set d := sig.length with hdim
  obtain ⟨hword, hcnt, hres⟩ := cayley_word_structure sig s x y d hd hx hy
  have hxor : x ^^^ y < 2 ^ d := Nat.xor_lt_two_pow hx hy
  have hxsort := bin2canonDigits_sorted d s (x ^^^ y) hd
  have signval : (cayleyPair sig s (bin2canonDigits d s x)
      (bin2canonDigits d s y)).2.1
      = signFold sig s
          (if (sortProduct (bin2canonDigits d s x ++ bin2canonDigits d s y)).2 % 2 = 1
           then -1 else 1)
          (((List.range d).filter (fun ei => bitCnt x y ei ≠ 0)).map
            (fun ei => (hexDigitChar (ei + s), bitCnt x y ei))) := by
    simp only [cayleyPair, hword, hcnt]
  have hσ : (if (sortProduct (bin2canonDigits d s x ++ bin2canonDigits d s y)).2 % 2 = 1
      then (-1 : Int) else 1) = 1 ∨
      (if (sortProduct (bin2canonDigits d s x ++ bin2canonDigits d s y)).2 % 2 = 1
      then (-1 : Int) else 1) = -1 ∨
      (if (sortProduct (bin2canonDigits d s x ++ bin2canonDigits d s y)).2 % 2 = 1
      then (-1 : Int) else 1) = 0 := by
    split
    · norm_num
    · norm_num
  have hsign3 := signFold_mem sig s _
    (((List.range d).filter (fun ei => bitCnt x y ei ≠ 0)).map
      (fun ei => (hexDigitChar (ei + s), bitCnt x y ei))) hv hσ
  rw [← signval] at hsign3
  refine ⟨hsign3, ?_, hxor, hxsort⟩
  have entryval : (cayleyPair sig s (bin2canonDigits d s x)
      (bin2canonDigits d s y)).2.2
      = if (cayleyPair sig s (bin2canonDigits d s x)
            (bin2canonDigits d s y)).2.1 ≠ 0 then
          (if (cayleyPair sig s (bin2canonDigits d s x)
              (bin2canonDigits d s y)).2.1 = -1 then ['-'] else [])
            ++ 'e' :: bin2canonDigits d s (x ^^^ y)
        else ['0'] := by
    simp only [cayleyPair, hword, hcnt, hres]
  rcases hsign3 with h1 | h1 | h1 <;> rw [entryval, h1]
  · right
    left
    norm_num
    rfl
  · right
    right
    norm_num
    rfl
  · left
    norm_num

/-- Witness for `cayley_entries_wellformed` in the algebra with signature
`[1, 1]` at the blade pair `(1, 3)`. -/
theorem cayley_entries_wellformed_witness :
    ((cayleyPair [1, 1] (startOf [1, 1]) (bin2canonDigits 2 (startOf [1, 1]) 1)
        (bin2canonDigits 2 (startOf [1, 1]) 3)).2.1 = 1 ∨
     (cayleyPair [1, 1] (startOf [1, 1]) (bin2canonDigits 2 (startOf [1, 1]) 1)
        (bin2canonDigits 2 (startOf [1, 1]) 3)).2.1 = -1 ∨
     (cayleyPair [1, 1] (startOf [1, 1]) (bin2canonDigits 2 (startOf [1, 1]) 1)
        (bin2canonDigits 2 (startOf [1, 1]) 3)).2.1 = 0) ∧
    ((cayleyPair [1, 1] (startOf [1, 1]) (bin2canonDigits 2 (startOf [1, 1]) 1)
        (bin2canonDigits 2 (startOf [1, 1]) 3)).2.2 = ['0'] ∨
     (cayleyPair [1, 1] (startOf [1, 1]) (bin2canonDigits 2 (startOf [1, 1]) 1)
        (bin2canonDigits 2 (startOf [1, 1]) 3)).2.2
          = bin2canon 2 (startOf [1, 1]) (1 ^^^ 3) ∨
     (cayleyPair [1, 1] (startOf [1, 1]) (bin2canonDigits 2 (startOf [1, 1]) 1)
        (bin2canonDigits 2 (startOf [1, 1]) 3)).2.2
          = '-' :: bin2canon 2 (startOf [1, 1]) (1 ^^^ 3)) ∧
    1 ^^^ 3 < 2 ^ 2 ∧
    (bin2canonDigits 2 (startOf [1, 1]) (1 ^^^ 3)).Pairwise (· < ·) :=
  cayley_entries_wellformed [1, 1] 1 3 (by decide) (by decide) (by decide)
    (by decide)

/-! Auxiliary facts showing that a `'0'` digit can never occur in a canonical
name when the start index is positive. -/

theorem hexStrAux_ne_nil (fuel n : Nat) (h : 0 < fuel) : hexStrAux fuel n ≠ [] := by
  cases fuel with
  | zero => omega
  | succ fuel =>
      rw [hexStrAux]
      split
      · simp
      · simp

theorem hexStr_ne_nil (n : Nat) : hexStr n ≠ [] :=
  hexStrAux_ne_nil (n + 1) n (by omega)

theorem hexStr_eq_single_zero (m : Nat) (h : hexStr m = ['0']) : m = 0 := by
  by_cases hm : m < 16
  · rw [hexStr_of_lt m hm] at h
    have hc : hexDigitChar m = '0' := by simpa using h
    have hz : ∀ k < 16, hexDigitChar k = '0' → k = 0 := by decide
    exact hz m hm hc
  · exfalso
    rw [hexStr] at h
    simp only [hexStrAux, hm, if_false] at h
    have hne := hexStrAux_ne_nil m (m / 16) (by omega)
    have hlen := congrArg List.length h
    simp only [List.length_append, List.length_cons, List.length_nil] at hlen
    have hne0 : (hexStrAux m (m / 16)).length ≠ 0 := by
      intro h0
      exact hne (List.length_eq_zero.mp h0)
    omega

theorem bin2canonDigits_ne_single_zero (d s b : Nat) (hs : 0 < s) :
    bin2canonDigits d s b ≠ ['0'] := by
  unfold bin2canonDigits
  intro h
  cases hL : (List.range d).filter (fun ei => b.testBit ei) with
  | nil => rw [hL] at h; simp at h
  | cons a t =>
      rw [hL, List.flatMap_cons] at h
      cases hsa : hexStr (a + s) with
      | nil => exact hexStr_ne_nil (a + s) hsa
      | cons c cs =>
          rw [hsa, List.cons_append] at h
          have hc : c = '0' := (List.cons.injEq _ _ _ _).mp h |>.1
          have hrest := (List.cons.injEq _ _ _ _).mp h |>.2
          have hcs : cs = [] := (List.append_eq_nil.mp hrest).1
          have hzero : a + s = 0 :=
            hexStr_eq_single_zero (a + s) (by rw [hsa, hc, hcs])
          omega

/-- C4 counterexample (the claim as stated, over every algebra): at `d = 16`
with sixteen `+1` generators (start index 1), the Cayley entry for the pair
`(e1, e10)` is the string `"e0"`, which is not the zero literal and is not a
(possibly minus-prefixed) canonical name — no blade of any index is named
`"e0"` when the start index is 1. -/
theorem cayley_entries_wellformed_cex :
    startOf (List.replicate 16 (1 : Int)) = 1 ∧
    bin2canon 16 1 1 = ['e', '1'] ∧
    bin2canon 16 1 (2 ^ 15) = ['e', '1', '0'] ∧
    cayleyPair (List.replicate 16 (1 : Int)) 1 ['1'] ['1', '0']
      = (2, 1, ['e', '0']) ∧
    (∀ b : Nat, bin2canon 16 1 b ≠ ['e', '0']) := by
  refine ⟨by decide, by decide, by decide, by decide, ?_⟩
  intro b h
  have hdig : bin2canonDigits 16 1 b = ['0'] := by
    simpa [bin2canon] using h
  exact bin2canonDigits_ne_single_zero 16 1 b (by omega) hdig

/-! ## C5: `indices_for_grade` partitions the index range -/

theorem groupByRuns_flatMap (key : Nat → Nat) (l : List Nat) :
    (groupByRuns key l).flatMap (fun kv => kv.2) = l := by
  induction l with
  | nil => rfl
  | cons a rest ih =>
      rw [groupByRuns]
      cases hg : groupByRuns key rest with
      | nil =>
          rw [hg] at ih
          simp only [List.flatMap_nil] at ih
          rw [groupByRunsStep]
          simp [← ih]
      | cons hd more =>
          obtain ⟨k, run⟩ := hd
          rw [hg] at ih
          rw [groupByRunsStep]
          by_cases hk : key a = k
          · rw [if_pos hk]
            simp only [List.flatMap_cons] at ih ⊢
            simp [← ih]
          · rw [if_neg hk]
            simp only [List.flatMap_cons] at ih ⊢
            simp [← ih]

theorem groupByRuns_key (key : Nat → Nat) (l : List Nat) :
    ∀ kv ∈ groupByRuns key l, ∀ a ∈ kv.2, key a = kv.1 := by
  induction l with
  | nil => simp [groupByRuns]
  | cons a rest ih =>
      intro kv hkv b hb
      rw [groupByRuns] at hkv
      revert hkv
      cases hg : groupByRuns key rest with
      | nil =>
          rw [groupByRunsStep]
          intro hkv
          simp only [List.mem_singleton] at hkv
          subst hkv
          simp only [List.mem_singleton] at hb
          subst hb
          rfl
      | cons hd more =>
          obtain ⟨k, run⟩ := hd
          rw [groupByRunsStep]
          by_cases hk : key a = k
          · rw [if_pos hk]
            intro hkv
            rcases List.mem_cons.mp hkv with rfl | hkv'
            · rcases List.mem_cons.mp hb with rfl | hb'
              · exact hk
              · exact ih (k, run) (by rw [hg]; simp) b hb'
            · exact ih kv (by rw [hg]; simp [hkv']) b hb
          · rw [if_neg hk]
            intro hkv
            rcases List.mem_cons.mp hkv with rfl | hkv'
            · simp only [List.mem_singleton] at hb
              subst hb
              rfl
            · exact ih kv (by rw [hg]; exact hkv') b hb

theorem countP_buckets_of_count_one (i : Nat) (L : List (Nat × List Nat))
    (h : (L.map (fun kv => kv.2.count i)).sum = 1) :
    L.countP (fun kv => i ∈ kv.2) = 1 := by
  induction L with
  | nil => simp at h
  | cons kv t ih =>
      simp only [List.map_cons, List.sum_cons] at h
      rw [List.countP_cons]
      by_cases hz : kv.2.count i = 0
      · have hmem : i ∉ kv.2 := by
          intro hmem
          have := List.count_pos_iff.mpr hmem
          omega
        rw [ih (by omega)]
        simp [hmem]
      · have hmem : i ∈ kv.2 := List.count_pos_iff.mp (by omega)
        have hrest : (t.map (fun kv => kv.2.count i)).sum = 0 := by omega
        have ht0 : t.countP (fun kv => i ∈ kv.2) = 0 := by
          rw [List.countP_eq_zero]
          intro kv' hkv'
          have hle : kv'.2.count i ≤ (t.map (fun kv => kv.2.count i)).sum :=
            List.single_le_sum (fun x _ => Nat.zero_le x) _
              (List.mem_map_of_mem _ hkv')
          have hz' : kv'.2.count i = 0 := by omega
          intro hmem'
          rw [decide_eq_true_eq] at hmem'
          have := List.count_pos_iff.mpr hmem'
          omega
        rw [ht0]
        simp [hmem]

/-- C5: `indices_for_grade` partitions `[0, 2^d)`: every index below `2^d`
lies in exactly one grade bucket, every bucket's elements have population
count equal to the bucket's grade key, and the bucket sizes sum to `2^d`. -/
theorem indices_for_grade_partition (d : Nat) :
    (∀ i < 2 ^ d, (indicesForGradeList d).countP (fun gv => i ∈ gv.2) = 1) ∧
    (∀ gv ∈ indicesForGradeList d, ∀ i ∈ gv.2, popcount i = gv.1) ∧
    ((indicesForGradeList d).map (fun gv => gv.2.length)).sum = 2 ^ d := by
  have hperm : List.Perm (sortedInds d) (List.range (2 ^ d)) :=
    List.mergeSort_perm _ _
  have hjoin : (indicesForGradeList d).flatMap (fun kv => kv.2) = sortedInds d :=
    groupByRuns_flatMap popcount (sortedInds d)
  refine ⟨?_, ?_, ?_⟩
  · intro i hi
    apply countP_buckets_of_count_one
    have hcount : ((indicesForGradeList d).flatMap (fun kv => kv.2)).count i = 1 := by
      rw [hjoin, hperm.count_eq]
      exact List.count_eq_one_of_mem (List.nodup_range (2 ^ d))
        (List.mem_range.mpr hi)
    rw [List.flatMap_def, List.count_flatten, List.map_map] at hcount
    exact hcount
  · intro gv hgv i hi
    exact groupByRuns_key popcount (sortedInds d) gv hgv i hi
  · have hlen := congrArg List.length hjoin
    rw [List.flatMap_def, List.length_flatten, List.map_map] at hlen
    rw [show (fun gv : Nat × List Nat => gv.2.length)
      = List.length ∘ (fun kv : Nat × List Nat => kv.2) from rfl]
    rw [hlen, hperm.length_eq, List.length_range]

/-- Witness for `indices_for_grade_partition` at `d = 2` and index 2. -/
theorem indices_for_grade_partition_witness :
    (indicesForGradeList 2).countP (fun gv => 2 ∈ gv.2) = 1 ∧
    ((indicesForGradeList 2).map (fun gv => gv.2.length)).sum = 2 ^ 2 :=
  ⟨(indices_for_grade_partition 2).1 2 (by decide),
   (indices_for_grade_partition 2).2.2⟩

/-! ## C7: signature validation -/

theorem count_tally_le (sig : List Int) :
    sig.count 1 + sig.count (-1) + sig.count 0 ≤ sig.length := by
  induction sig with
  | nil => simp
  | cons a t ih =>
      simp only [List.count_cons, List.length_cons, beq_iff_eq]
      split_ifs <;> omega

theorem count_tally_iff (sig : List Int) :
    sig.count 1 + sig.count (-1) + sig.count 0 = sig.length
      ↔ ∀ v ∈ sig, v = 1 ∨ v = -1 ∨ v = 0 := by
  induction sig with
  | nil => simp
  | cons a t ih =>
      have hle := count_tally_le t
      simp only [List.count_cons, List.length_cons, List.mem_cons, beq_iff_eq]
      constructor
      · intro h
        have hsum : t.count 1 + t.count (-1) + t.count 0 = t.length
            ∧ (a = 1 ∨ a = -1 ∨ a = 0) := by
          split_ifs at h <;> omega
        intro v hv
        rcases hv with rfl | hvt
        · exact hsum.2
        · exact (ih.mp hsum.1) v hvt
      · intro h
        have ha := h a (Or.inl rfl)
        have ht := ih.mpr (fun v hv => h v (Or.inr hv))
        rcases ha with rfl | rfl | rfl <;> norm_num <;> omega

/-- C7: with an explicit signature sequence the constructor derives the
counts `p, q, r` by tallying its `+1`, `-1`, and `0` entries (the passed-in
counts are ignored), and fails with the configuration error ("Unsupported
signature.") exactly when the tallies do not cover the sequence's length —
equivalently, exactly when some entry lies outside `{1, -1, 0}`; on success
construction proceeds with the tallied counts and the given signature. -/
theorem signature_validation (p₀ q₀ r₀ : Nat) (sig : List Int) :
    (resolveSignature p₀ q₀ r₀ (some sig) = Except.error "Unsupported signature."
      ↔ sig.count 1 + sig.count (-1) + sig.count 0 ≠ sig.length) ∧
    (resolveSignature p₀ q₀ r₀ (some sig) = Except.error "Unsupported signature."
      ↔ ¬ ∀ v ∈ sig, v = 1 ∨ v = -1 ∨ v = 0) ∧
    (∀ p q r sig',
      resolveSignature p₀ q₀ r₀ (some sig) = Except.ok (p, q, r, sig') →
      p = sig.count 1 ∧ q = sig.count (-1) ∧ r = sig.count 0 ∧ sig' = sig) := by
  by_cases heq : sig.count 1 + sig.count (-1) + sig.count 0 = sig.length
  · have hres : resolveSignature p₀ q₀ r₀ (some sig)
        = Except.ok (sig.count 1, sig.count (-1), sig.count 0, sig) := by
      show (if sig.count 1 + sig.count (-1) + sig.count 0 ≠ sig.length
            then (Except.error "Unsupported signature."
              : Except String (Nat × Nat × Nat × List Int))
            else Except.ok (sig.count 1, sig.count (-1), sig.count 0, sig))
          = Except.ok (sig.count 1, sig.count (-1), sig.count 0, sig)
      rw [if_neg (by omega)]
    rw [hres]
    refine ⟨iff_of_false (by simp) (by omega), iff_of_false (by simp) ?_, ?_⟩
    · intro hnall
      exact hnall ((count_tally_iff sig).mp heq)
    · intro p q r sig' hok
      simp only [Except.ok.injEq, Prod.mk.injEq] at hok
      exact ⟨hok.1.symm, hok.2.1.symm, hok.2.2.1.symm, hok.2.2.2.symm⟩
  · have hres : resolveSignature p₀ q₀ r₀ (some sig)
        = Except.error "Unsupported signature." := by
      show (if sig.count 1 + sig.count (-1) + sig.count 0 ≠ sig.length
            then (Except.error "Unsupported signature."
              : Except String (Nat × Nat × Nat × List Int))
            else Except.ok (sig.count 1, sig.count (-1), sig.count 0, sig))
          = Except.error "Unsupported signature."
      rw [if_pos (by omega)]
    rw [hres]
    refine ⟨iff_of_true rfl (by omega), iff_of_true rfl ?_, ?_⟩
    · intro hall
      exact heq ((count_tally_iff sig).mpr hall)
    · intro p q r sig' hok
      cases hok

/-- Witness for `signature_validation` at the malformed signature
`[1, -1, 0, 5]`. -/
theorem signature_validation_witness :
    (resolveSignature 0 0 0 (some [1, -1, 0, 5])
        = Except.error "Unsupported signature."
      ↔ ([1, -1, 0, 5] : List Int).count 1 + ([1, -1, 0, 5] : List Int).count (-1)
          + ([1, -1, 0, 5] : List Int).count 0 ≠ ([1, -1, 0, 5] : List Int).length) ∧
    (resolveSignature 0 0 0 (some [1, -1, 0, 5])
        = Except.error "Unsupported signature."
      ↔ ¬ ∀ v ∈ ([1, -1, 0, 5] : List Int), v = 1 ∨ v = -1 ∨ v = 0) ∧
    (∀ p q r sig',
      resolveSignature 0 0 0 (some [1, -1, 0, 5]) = Except.ok (p, q, r, sig') →
      p = ([1, -1, 0, 5] : List Int).count 1
        ∧ q = ([1, -1, 0, 5] : List Int).count (-1)
        ∧ r = ([1, -1, 0, 5] : List Int).count 0
        ∧ sig' = [1, -1, 0, 5]) :=
  signature_validation 0 0 0 [1, -1, 0, 5]

/-! ## C8: the 3, 0, 1 projective scenario -/

/-- C8: for `Algebra(3, 0, 1)` with no explicit signature or start index:
the resolver yields `d = 4` with the single null generator first
(`[0, 1, 1, 1]`), the start index resolves to 0, the pseudoscalar is the
blade at index `2^4 - 1 = 15` with grade 4 and name `"e0123"`, the null
generator `e0` squares to the literal zero entry, and every Cayley entry
for a pair of blades that both contain the null generator is the literal
zero. -/
theorem pga_3_0_1_scenario :
    resolveSignature 3 0 1 none = Except.ok (3, 0, 1, [0, 1, 1, 1]) ∧
    resolveStartIndex 1 none = 0 ∧
    ([0, 1, 1, 1] : List Int).length = 4 ∧
    popcount (2 ^ 4 - 1) = 4 ∧
    bin2canon 4 0 (2 ^ 4 - 1) = ['e', '0', '1', '2', '3'] ∧
    bin2canon 4 0 1 = ['e', '0'] ∧
    cayleyPair [0, 1, 1, 1] 0 ['0'] ['0'] = (0, 0, ['0']) ∧
    (∀ i < 16, ∀ j < 16, i.testBit 0 = true → j.testBit 0 = true →
      (cayleyPair [0, 1, 1, 1] 0 (bin2canonDigits 4 0 i)
        (bin2canonDigits 4 0 j)).2.2 = ['0']) := by
  refine ⟨rfl, ?_⟩
  decide

/-- Witness for `pga_3_0_1_scenario`: the product `e01 · e02` (both blades
contain the null generator) is the zero entry. -/
theorem pga_3_0_1_scenario_witness :
    (cayleyPair [0, 1, 1, 1] 0 (bin2canonDigits 4 0 3)
      (bin2canonDigits 4 0 5)).2.2 = ['0'] :=
  pga_3_0_1_scenario.2.2.2.2.2.2.2 3 (by decide) 5 (by decide) (by decide)
    (by decide)

/-! ## C9: `BladeDict` — lazy and eager population agree -/

/-- Modelled from the spec: the values built by `BladeDict.__getitem__` come
from `MultiVector.fromkeysvalues` and `Algebra.multivector`, which live
outside `src/`; per the spec a blade's value is the single-blade multivector
with coefficient 1 at that blade's index, scoped to the blade's grade's
index slice in graded mode. -/
inductive MVRep where
  | sparse (keys : List Nat) (values : List Int)
  | gradedRep (grades : List Nat) (values : List Int)
deriving DecidableEq

/-- The value `BladeDict.__getitem__` constructs for the blade with binary
index `b` in an algebra of dimension `d` (`graded` selects the grade-scoped
representation, with the indicator coefficients `int(bin_blade == i)`). -/
def bladeValue (d : Nat) (graded : Bool) (b : Nat) : MVRep :=
  if graded then
    MVRep.gradedRep [popcount b]
      (((indicesForGrade d (popcount b)).getD []).map
        (fun i => if b = i then 1 else 0))
  else MVRep.sparse [b] [1]

/-- `BladeDict.__getitem__`: return the memoized entry if present; otherwise
translate the name through `canon2bin` (a `KeyError` for names outside the
canonical set, modelled as `none`), build the blade value, store it, and
return it together with the updated memo. -/
def getItem (d s : Nat) (graded : Bool) (st : List (List Char × MVRep))
    (blade : List Char) : Option (MVRep × List (List Char × MVRep)) :=
  match st.find? (fun kv => kv.1 = blade) with
  | some kv => some (kv.2, st)
  | none =>
      match canon2bin d s blade with
      | none => none
      | some b =>
          some (bladeValue d graded b, st ++ [(blade, bladeValue d graded b)])

/-- The eagerly populated dict: `__post_init__` with `lazy=False` retrieves
every canonical name once.  (The source iterates the keys of `canon2bin`;
iterating `bin2canon`'s names over all indices covers the same key set, and
re-retrieving an already-memoized name leaves the state unchanged.) -/
def eagerState (d s : Nat) (graded : Bool) : List (List Char × MVRep) :=
  (List.range (2 ^ d)).foldl
    (fun st b =>
      match getItem d s graded st (bin2canon d s b) with
      | some r => r.2
      | none => st)
    []

/-- Every memoized entry is the blade value of its own name. -/
def BladeWF (d s : Nat) (graded : Bool) (st : List (List Char × MVRep)) : Prop :=
  ∀ kv ∈ st, ∃ b, canon2bin d s kv.1 = some b ∧ kv.2 = bladeValue d graded b

theorem getItem_value (d s : Nat) (graded : Bool) (st : List (List Char × MVRep))
    (blade : List Char) (b : Nat)
    (hwf : BladeWF d s graded st) (hb : canon2bin d s blade = some b) :
    ∃ st', getItem d s graded st blade = some (bladeValue d graded b, st')
      ∧ BladeWF d s graded st' := by
  unfold getItem
  cases hf : st.find? (fun kv => kv.1 = blade) with
  | none =>
      rw [hb]
      refine ⟨st ++ [(blade, bladeValue d graded b)], rfl, ?_⟩
      intro kv hkv
      rcases List.mem_append.mp hkv with h | h
      · exact hwf kv h
      · have hkv' : kv = (blade, bladeValue d graded b) := by simpa using h
        subst hkv'
        exact ⟨b, hb, rfl⟩
  | some kv =>
      have hmem := List.mem_of_find?_eq_some hf
      have hpred := List.find?_some hf
      have hkey : kv.1 = blade := by simpa using hpred
      obtain ⟨b', hb', hv⟩ := hwf kv hmem
      rw [hkey] at hb'
      rw [hb'] at hb
      have hbb : b' = b := by injection hb
      subst hbb
      refine ⟨st, ?_, hwf⟩
      show some (kv.2, st) = some (bladeValue d graded b', st)
      rw [hv]

theorem getItem_wf (d s : Nat) (graded : Bool) (st : List (List Char × MVRep))
    (blade : List Char) (r : MVRep × List (List Char × MVRep))
    (hwf : BladeWF d s graded st)
    (h : getItem d s graded st blade = some r) : BladeWF d s graded r.2 := by
  unfold getItem at h
  cases hf : st.find? (fun kv => kv.1 = blade) with
  | some kv =>
      rw [hf] at h
      cases h
      exact hwf
  | none =>
      rw [hf] at h
      cases hb : canon2bin d s blade with
      | none =>
          rw [hb] at h
          cases h
      | some b =>
          rw [hb] at h
          cases h
          intro kv hkv
          rcases List.mem_append.mp hkv with hmem | hmem
          · exact hwf kv hmem
          · have hkv' : kv = (blade, bladeValue d graded b) := by simpa using hmem
            subst hkv'
            exact ⟨b, hb, rfl⟩

theorem foldl_getItem_wf (d s : Nat) (graded : Bool) (l : List Nat)
    (st : List (List Char × MVRep)) (h : BladeWF d s graded st) :
    BladeWF d s graded (l.foldl
      (fun st b =>
        match getItem d s graded st (bin2canon d s b) with
        | some r => r.2
        | none => st) st) := by
  induction l generalizing st with
  | nil => exact h
  | cons a t ih =>
      rw [List.foldl_cons]
      apply ih
      cases hg : getItem d s graded st (bin2canon d s a) with
      | none => simpa [hg] using h
      | some r => simpa [hg] using getItem_wf d s graded st (bin2canon d s a) r h hg

theorem eagerState_wf (d s : Nat) (graded : Bool) :
    BladeWF d s graded (eagerState d s graded) :=
  foldl_getItem_wf d s graded (List.range (2 ^ d)) [] (by intro kv hkv; cases hkv)

theorem getItem_idem (d s : Nat) (graded : Bool) (st : List (List Char × MVRep))
    (blade : List Char) (v : MVRep) (st' : List (List Char × MVRep))
    (h : getItem d s graded st blade = some (v, st')) :
    getItem d s graded st' blade = some (v, st') := by
  unfold getItem at h ⊢
  cases hf : st.find? (fun kv => kv.1 = blade) with
  | some kv =>
      rw [hf] at h
      have hv : kv.2 = v ∧ st = st' := by
        simpa using h
      obtain ⟨hv1, hv2⟩ := hv
      subst hv2
      rw [hf]
      show some (kv.2, st) = some (v, st)
      rw [hv1]
  | none =>
      rw [hf] at h
      cases hb : canon2bin d s blade with
      | none =>
          rw [hb] at h
          cases h
      | some b =>
          rw [hb] at h
          have hv : bladeValue d graded b = v
              ∧ st ++ [(blade, bladeValue d graded b)] = st' := by
            simpa using h
          obtain ⟨hv1, hv2⟩ := hv
          subst hv2
          have hfind : (st ++ [(blade, bladeValue d graded b)]).find?
              (fun kv => kv.1 = blade) = some (blade, bladeValue d graded b) := by
            rw [List.find?_append, hf]
            simp
          rw [hfind]
          show some ((blade, bladeValue d graded b).2,
              st ++ [(blade, bladeValue d graded b)])
            = some (v, st ++ [(blade, bladeValue d graded b)])
          rw [← hv1]

/-- C9: for every canonical blade name (one mapped by `canon2bin`), the value
returned by `BladeDict` lookup is identical whether the dict is populated
eagerly (all names retrieved at construction) or lazily (empty memo): both
return the blade value — the single-blade multivector with coefficient 1 at
the blade's index, scoped to the blade's grade in graded mode.  A second
lookup of the same name returns the same memoized value and leaves the memo
unchanged. -/
theorem blade_dict_lazy_eager_eq (d s : Nat) (graded : Bool) (blade : List Char)
    (b : Nat) (hb : canon2bin d s blade = some b) :
    (∃ stE, getItem d s graded (eagerState d s graded) blade
        = some (bladeValue d graded b, stE)) ∧
    (∃ stL, getItem d s graded [] blade = some (bladeValue d graded b, stL) ∧
      getItem d s graded stL blade = some (bladeValue d graded b, stL)) := by
  constructor
  · obtain ⟨st', h1, _⟩ := getItem_value d s graded (eagerState d s graded) blade b
      (eagerState_wf d s graded) hb
    exact ⟨st', h1⟩
  · obtain ⟨stL, h1, _⟩ := getItem_value d s graded [] blade b
      (by intro kv hkv; cases hkv) hb
    exact ⟨stL, h1, getItem_idem d s graded [] blade (bladeValue d graded b) stL h1⟩

/-- Witness for `blade_dict_lazy_eager_eq` in the 1-dimensional algebra at
the name `"e1"`. -/
theorem blade_dict_lazy_eager_eq_witness :
    (∃ stE, getItem 1 1 false (eagerState 1 1 false) ['e', '1']
        = some (bladeValue 1 false 1, stE)) ∧
    (∃ stL, getItem 1 1 false [] ['e', '1']
        = some (bladeValue 1 false 1, stL) ∧
      getItem 1 1 false stL ['e', '1'] = some (bladeValue 1 false 1, stL)) :=
  blade_dict_lazy_eager_eq 1 1 false ['e', '1'] 1 (by decide)

end Kingdon
